import Mathlib

/-!
Verification of the bill-splitting core of the `toolbox` repository.

The TypeScript source (`BillSplitter`) is shallowly embedded here:

* JavaScript numbers are modelled as exact rationals `ℚ` (the spec reasons
  over exact arithmetic); the JS value `Infinity`, used only for an
  uncapped `maxDiscountAmount`, is modelled by `Option ℚ` with `none`
  standing for `Infinity`.
* The allocation map `{[key: string]: number}` (with `|| 0` defaulting)
  is modelled as a total function `String → ℚ` that is `0` away from the
  keys that were written.
* The `while` loop of `calculateDiscountedAmounts` is modelled by
  fuel-bounded recursion; `calculateDiscountedAmounts` runs it with fuel
  `eligiblePeople.length + 1`, and the stability theorem for claim C4
  proves that any larger fuel yields the same result, i.e. the loop
  terminates within `O(n)` rounds.
* `crypto.randomUUID()` is modelled by an identifier supply
  `gen : Nat → String` consumed in call order.
* The `btoa ∘ JSON.stringify` / `JSON.parse ∘ atob` wire layer consists of
  platform functions, not repository code; it is modelled as the identity
  on the structural `CompactState`, with a decode failure of any kind
  (invalid base64, invalid JSON, wrong shape) modelled as `none`.
-/

/-- Data model: a priced line item (`Item` in `types/bill-split`). -/
structure Item where
  id : String
  name : String
  quantity : ℚ
  price : ℚ
deriving DecidableEq

/-- Data model: a participant owning a list of items (`Person`). -/
structure Person where
  id : String
  name : String
  items : List Item
deriving DecidableEq

/-- Discount type: `"percentage" | "flat"`. -/
inductive DiscountType where
  | percentage
  | flat
deriving DecidableEq

/-- Discount configuration (`DiscountSettings`); `maxDiscountAmount = none`
models the JS value `Infinity` (uncapped). -/
structure DiscountSettings where
  type : DiscountType
  value : ℚ
  minimumSpend : ℚ
  maxDiscountAmount : Option ℚ
deriving DecidableEq

/-- An additional shared fee (`AdditionalFee`). -/
structure AdditionalFee where
  id : String
  name : String
  amount : ℚ
deriving DecidableEq

/-- Per-participant derived summary (`BillSummary`). -/
structure BillSummary where
  personId : String
  subtotal : ℚ
  discountedSubtotal : ℚ
  sharedFees : ℚ
  total : ℚ
deriving DecidableEq

/-- A participant's subtotal:
`person.items.reduce((sum, item) => sum + item.price * item.quantity, 0)`. -/
def subtotal (person : Person) : ℚ :=
  person.items.foldl (fun sum item => sum + item.price * item.quantity) 0

/-- One `forEach` step of a round of `calculateDiscountedAmounts`: the
accumulator carries the `discountedAmounts` map and the running
`unusedDiscount`. -/
def applyShare (discountPerPerson : ℚ) (acc : (String → ℚ) × ℚ)
    (person : Person) : (String → ℚ) × ℚ :=
  let discountedAmounts := acc.1
  let unusedDiscount := acc.2
  let currentDiscount := discountedAmounts person.id
  let remainingSubtotal := subtotal person - currentDiscount
  if 0 < remainingSubtotal then
    let appliedDiscount := min discountPerPerson remainingSubtotal
    (fun key => if key = person.id then discountedAmounts key + appliedDiscount
      else discountedAmounts key,
     unusedDiscount + (discountPerPerson - appliedDiscount))
  else acc

/-- One round of the `while` loop: compute the equal share
`discountPerPerson = remainingDiscount / eligiblePeople.length` and apply it
to every eligible person, returning the updated map and the accumulated
unused discount. -/
def allocRound (discountedAmounts : String → ℚ) (remainingDiscount : ℚ)
    (eligiblePeople : List Person) : (String → ℚ) × ℚ :=
  eligiblePeople.foldl
    (applyShare (remainingDiscount / (eligiblePeople.length : ℚ)))
    (discountedAmounts, 0)

/-- The `while (remainingDiscount > 0 && eligiblePeople.length > 0)` loop,
fuel-bounded.  After each round the remaining discount becomes the unused
discount and the eligible set is re-filtered by positive remaining
subtotal, exactly as in the source. -/
def allocLoop : Nat → (String → ℚ) → ℚ → List Person → (String → ℚ)
  | 0, discountedAmounts, _, _ => discountedAmounts
  | fuel + 1, discountedAmounts, remainingDiscount, eligiblePeople =>
    if 0 < remainingDiscount ∧ 0 < eligiblePeople.length then
      allocLoop fuel
        (allocRound discountedAmounts remainingDiscount eligiblePeople).1
        (allocRound discountedAmounts remainingDiscount eligiblePeople).2
        (eligiblePeople.filter fun person =>
          0 < subtotal person -
            (allocRound discountedAmounts remainingDiscount eligiblePeople).1
              person.id)
    else discountedAmounts

/-- `calculateDiscountedAmounts(people, totalDiscount, minimumSpend)`.
The `minimumSpend` parameter is received but never read, exactly as in the
source.  The loop needs at most `eligiblePeople.length + 1` rounds (proved
as claim C4), so that fuel computes the loop's final state. -/
def calculateDiscountedAmounts (people : List Person) (totalDiscount : ℚ)
    (minimumSpend : ℚ) : String → ℚ :=
  let eligiblePeople := people.filter fun person => 0 < subtotal person
  allocLoop (eligiblePeople.length + 1) (fun _ => 0) totalDiscount
    eligiblePeople

/-- `Math.min(a, cap)` where `cap` may be the JS `Infinity` (`none`). -/
def mathMinInf (a : ℚ) (cap : Option ℚ) : ℚ :=
  match cap with
  | none => a
  | some c => min a c

/-- The `totalDiscount` expression inside `calculateBillSummary`:
percentage discounts apply `value/100` to the sum of all participants'
subtotals, flat discounts use `value` directly, both capped by
`maxDiscountAmount` via `Math.min`. -/
def billTotalDiscount (people : List Person)
    (discountSettings : DiscountSettings) : ℚ :=
  if discountSettings.type = DiscountType.percentage then
    mathMinInf
      ((people.foldl (fun sum person => sum + subtotal person) 0) *
        (discountSettings.value / 100))
      discountSettings.maxDiscountAmount
  else
    mathMinInf discountSettings.value discountSettings.maxDiscountAmount

/-- `calculateBillSummary()`: shared fees are split equally using
`people.length || 1` as the divisor, the total discount is distributed by
`calculateDiscountedAmounts`, and each participant's row is built from
their subtotal and applied discount. -/
def calculateBillSummary (people : List Person)
    (discountSettings : DiscountSettings)
    (additionalFees : List AdditionalFee) : List BillSummary :=
  let totalAdditionalFees :=
    additionalFees.foldl (fun sum fee => sum + fee.amount) 0
  let sharedFeesPerPerson :=
    totalAdditionalFees /
      ((if people.length = 0 then 1 else people.length : Nat) : ℚ)
  let totalDiscount := billTotalDiscount people discountSettings
  let discountedAmounts :=
    calculateDiscountedAmounts people totalDiscount
      discountSettings.minimumSpend
  people.map fun person =>
    let personSubtotal := subtotal person
    let appliedDiscount := discountedAmounts person.id
    let discountedSubtotal := max 0 (personSubtotal - appliedDiscount)
    { personId := person.id
      subtotal := personSubtotal
      discountedSubtotal := discountedSubtotal
      sharedFees := sharedFeesPerPerson
      total := discountedSubtotal + sharedFeesPerPerson }

/-! ### Modelled spec-side definition for claim C3 -/

/-- Sum of all participants' subtotals. -/
def totalSub (people : List Person) : ℚ :=
  (people.map subtotal).sum

/-- The spec's `computeTotalDiscount` operation, stated from the spec's
words: percentage discounts give `min(value% × Σ subtotals, cap)`, flat
discounts give `min(value, cap)`, and an uncapped `cap` behaves as `+∞`
in the `min`. -/
def computeTotalDiscountSpec (participants : List Person)
    (config : DiscountSettings) : ℚ :=
  match config.type, config.maxDiscountAmount with
  | DiscountType.percentage, none => config.value / 100 * totalSub participants
  | DiscountType.percentage, some cap =>
      min (config.value / 100 * totalSub participants) cap
  | DiscountType.flat, none => config.value
  | DiscountType.flat, some cap => min config.value cap

/-! ### Sum lemmas -/

/-- The total discount allocated to a list of participants by an
allocation map. -/
def allocSum (people : List Person) (amts : String → ℚ) : ℚ :=
  (people.map fun p => amts p.id).sum

lemma foldl_add_eq {α : Type} (f : α → ℚ) :
    ∀ (l : List α) (a : ℚ), l.foldl (fun s x => s + f x) a = a + (l.map f).sum
  | [], a => by simp
  | x :: l, a => by
    rw [List.foldl_cons, foldl_add_eq f l (a + f x), List.map_cons,
      List.sum_cons]
    ring

lemma subtotal_eq_sum (p : Person) :
    subtotal p = (p.items.map fun i => i.price * i.quantity).sum := by
  rw [subtotal, foldl_add_eq, zero_add]

lemma subtotal_nonneg (p : Person)
    (h : ∀ it ∈ p.items, 0 ≤ it.quantity ∧ 0 ≤ it.price) : 0 ≤ subtotal p := by
  rw [subtotal_eq_sum]
  apply List.sum_nonneg
  intro x hx
  obtain ⟨it, hit, rfl⟩ := List.mem_map.mp hx
  exact mul_nonneg (h it hit).2 (h it hit).1

lemma peopleFoldl_eq_totalSub (people : List Person) :
    people.foldl (fun sum person => sum + subtotal person) 0 =
      totalSub people := by
  rw [foldl_add_eq, zero_add, totalSub]

@[simp] lemma allocSum_nil (amts : String → ℚ) : allocSum [] amts = 0 := rfl

lemma allocSum_cons (p : Person) (l : List Person) (amts : String → ℚ) :
    allocSum (p :: l) amts = amts p.id + allocSum l amts := by
  simp [allocSum]

@[simp] lemma allocSum_zero (l : List Person) :
    allocSum l (fun _ => 0) = 0 := by
  simp [allocSum]

lemma allocSum_congr {l : List Person} {f g : String → ℚ}
    (h : ∀ p ∈ l, f p.id = g p.id) : allocSum l f = allocSum l g := by
  unfold allocSum
  exact congrArg List.sum (List.map_congr_left h)

lemma allocSum_le_totalSub {l : List Person} {f : String → ℚ}
    (h : ∀ p ∈ l, f p.id ≤ subtotal p) : allocSum l f ≤ totalSub l := by
  unfold allocSum totalSub
  exact List.sum_le_sum h

lemma allocSum_eq_totalSub {l : List Person} {f : String → ℚ}
    (h : ∀ p ∈ l, f p.id = subtotal p) : allocSum l f = totalSub l := by
  unfold allocSum totalSub
  exact congrArg List.sum (List.map_congr_left h)

/-- Distinct ids make `Person.id` injective on the list. -/
lemma id_inj {l : List Person} (hN : (l.map Person.id).Nodup) {p q : Person}
    (hp : p ∈ l) (hq : q ∈ l) (h : p.id = q.id) : p = q :=
  List.inj_on_of_nodup_map hN hp hq h

lemma allocSum_update {l : List Person} (hN : (l.map Person.id).Nodup)
    {p : Person} (hp : p ∈ l) (amts : String → ℚ) (δ : ℚ) :
    allocSum l (fun k => if k = p.id then amts k + δ else amts k) =
      allocSum l amts + δ := by
  induction l with
  | nil => cases hp
  | cons q t ih =>
    rw [List.map_cons, List.nodup_cons] at hN
    rcases List.mem_cons.mp hp with rfl | hpt
    · rw [allocSum_cons, allocSum_cons, if_pos rfl]
      have ht : allocSum t (fun k => if k = p.id then amts k + δ else amts k) =
          allocSum t amts := by
        apply allocSum_congr
        intro r hr
        have : r.id ≠ p.id := fun h => hN.1 (h ▸ List.mem_map_of_mem Person.id hr)
        rw [if_neg this]
      rw [ht]; ring
    · have hne : q.id ≠ p.id := by
        intro h
        exact hN.1 (h ▸ List.mem_map_of_mem Person.id hpt)
      rw [allocSum_cons, allocSum_cons, if_neg hne, ih hN.2 hpt]
      ring

/-! ### Single-step lemmas about `applyShare` -/

lemma applyShare_of_pos {p : Person} {acc : (String → ℚ) × ℚ} (dpp : ℚ)
    (h : 0 < subtotal p - acc.1 p.id) :
    applyShare dpp acc p =
      (fun k => if k = p.id then
          acc.1 k + min dpp (subtotal p - acc.1 p.id) else acc.1 k,
       acc.2 + (dpp - min dpp (subtotal p - acc.1 p.id))) := by
  simp only [applyShare, if_pos h]

lemma applyShare_of_nonpos {p : Person} {acc : (String → ℚ) × ℚ} (dpp : ℚ)
    (h : ¬ 0 < subtotal p - acc.1 p.id) : applyShare dpp acc p = acc := by
  simp only [applyShare, if_neg h]

lemma applyShare_fst_mono {dpp : ℚ} (hdpp : 0 ≤ dpp)
    (acc : (String → ℚ) × ℚ) (p : Person) (k : String) :
    acc.1 k ≤ (applyShare dpp acc p).1 k := by
  by_cases h : 0 < subtotal p - acc.1 p.id
  · rw [applyShare_of_pos dpp h]
    dsimp only
    by_cases hk : k = p.id
    · rw [if_pos hk]
      have : 0 ≤ min dpp (subtotal p - acc.1 p.id) :=
        le_min hdpp h.le
      linarith
    · rw [if_neg hk]
  · rw [applyShare_of_nonpos dpp h]

lemma applyShare_snd_mono (dpp : ℚ) (acc : (String → ℚ) × ℚ) (p : Person) :
    acc.2 ≤ (applyShare dpp acc p).2 := by
  by_cases h : 0 < subtotal p - acc.1 p.id
  · rw [applyShare_of_pos dpp h]
    dsimp only
    have : min dpp (subtotal p - acc.1 p.id) ≤ dpp := min_le_left _ _
    linarith
  · rw [applyShare_of_nonpos dpp h]

lemma applyShare_untouched {p : Person} {k : String} (dpp : ℚ)
    (acc : (String → ℚ) × ℚ) (hk : k ≠ p.id) :
    (applyShare dpp acc p).1 k = acc.1 k := by
  by_cases h : 0 < subtotal p - acc.1 p.id
  · rw [applyShare_of_pos dpp h]
    exact if_neg hk
  · rw [applyShare_of_nonpos dpp h]

/-! ### Fold lemmas: one whole round of the loop -/

lemma foldShare_fst_mono {dpp : ℚ} (hdpp : 0 ≤ dpp) :
    ∀ (E : List Person) (acc : (String → ℚ) × ℚ) (k : String),
      acc.1 k ≤ (E.foldl (applyShare dpp) acc).1 k
  | [], _, _ => le_refl _
  | p :: t, acc, k => by
    rw [List.foldl_cons]
    exact (applyShare_fst_mono hdpp acc p k).trans
      (foldShare_fst_mono hdpp t (applyShare dpp acc p) k)

lemma foldShare_snd_mono (dpp : ℚ) :
    ∀ (E : List Person) (acc : (String → ℚ) × ℚ),
      acc.2 ≤ (E.foldl (applyShare dpp) acc).2
  | [], _ => le_refl _
  | p :: t, acc => by
    rw [List.foldl_cons]
    exact (applyShare_snd_mono dpp acc p).trans
      (foldShare_snd_mono dpp t (applyShare dpp acc p))

lemma foldShare_untouched (dpp : ℚ) :
    ∀ (E : List Person) (acc : (String → ℚ) × ℚ) (k : String),
      k ∉ E.map Person.id → (E.foldl (applyShare dpp) acc).1 k = acc.1 k
  | [], _, _, _ => rfl
  | p :: t, acc, k, hk => by
    rw [List.map_cons] at hk
    obtain ⟨hk1, hk2⟩ := List.ne_and_not_mem_of_not_mem_cons hk
    rw [List.foldl_cons, foldShare_untouched dpp t _ k hk2,
      applyShare_untouched dpp acc hk1]

/-- Lower bound: an eligible participant receives at least
`min dpp remainingSubtotal` during a round (ids distinct in the round's
list). -/
lemma foldShare_lower {dpp : ℚ} (hdpp : 0 ≤ dpp) :
    ∀ (E : List Person) (acc : (String → ℚ) × ℚ) (p : Person),
      (E.map Person.id).Nodup → p ∈ E → 0 < subtotal p - acc.1 p.id →
      acc.1 p.id + min dpp (subtotal p - acc.1 p.id) ≤
        (E.foldl (applyShare dpp) acc).1 p.id
  | [], _, _, _, hp, _ => absurd hp (List.not_mem_nil _)
  | q :: t, acc, p, hN, hp, hpos => by
    rw [List.map_cons, List.nodup_cons] at hN
    rw [List.foldl_cons]
    rcases List.mem_cons.mp hp with rfl | hpt
    · have hstep : (applyShare dpp acc p).1 p.id =
          acc.1 p.id + min dpp (subtotal p - acc.1 p.id) := by
        rw [applyShare_of_pos dpp hpos]
        exact if_pos rfl
      calc acc.1 p.id + min dpp (subtotal p - acc.1 p.id)
          = (applyShare dpp acc p).1 p.id := hstep.symm
        _ ≤ _ := foldShare_fst_mono hdpp t (applyShare dpp acc p) p.id
    · have hne : p.id ≠ q.id := by
        intro h
        exact hN.1 (h ▸ List.mem_map_of_mem Person.id hpt)
      have huntouched : (applyShare dpp acc q).1 p.id = acc.1 p.id :=
        applyShare_untouched dpp acc hne
      have := foldShare_lower hdpp t (applyShare dpp acc q) p hN.2 hpt
        (by rw [huntouched]; exact hpos)
      rwa [huntouched] at this

/-- Cap preservation: a round never pushes anybody's allocation above
their subtotal (ids distinct across all of `people`). -/
lemma foldShare_cap {people : List Person}
    (hN : (people.map Person.id).Nodup) (dpp : ℚ) :
    ∀ (E : List Person) (acc : (String → ℚ) × ℚ),
      E.Sublist people → (∀ q ∈ people, acc.1 q.id ≤ subtotal q) →
      ∀ q ∈ people, (E.foldl (applyShare dpp) acc).1 q.id ≤ subtotal q
  | [], _, _, hcap, q, hq => hcap q hq
  | p :: t, acc, hsub, hcap, q, hq => by
    have hp : p ∈ people := hsub.subset (List.mem_cons_self p t)
    have ht : t.Sublist people := List.sublist_of_cons_sublist hsub
    rw [List.foldl_cons]
    refine foldShare_cap hN dpp t (applyShare dpp acc p) ht ?_ q hq
    intro r hr
    by_cases hpos : 0 < subtotal p - acc.1 p.id
    · rw [applyShare_of_pos dpp hpos]
      dsimp only
      by_cases hrk : r.id = p.id
      · have : r = p := id_inj hN hr hp hrk
        subst this
        rw [if_pos rfl]
        have : min dpp (subtotal r - acc.1 r.id) ≤ subtotal r - acc.1 r.id :=
          min_le_right _ _
        linarith
      · rw [if_neg hrk]
        exact hcap r hr
    · rw [applyShare_of_nonpos dpp hpos]
      exact hcap r hr

/-- Conservation: when every processed participant has positive remaining
subtotal at the start of a round, the round adds exactly
`dpp * E.length` to `allocated-so-far + unused`. -/
lemma foldShare_conserve {people : List Person}
    (hN : (people.map Person.id).Nodup) (dpp : ℚ) :
    ∀ (E : List Person) (acc : (String → ℚ) × ℚ),
      E.Sublist people → (∀ q ∈ E, 0 < subtotal q - acc.1 q.id) →
      allocSum people (E.foldl (applyShare dpp) acc).1 +
          (E.foldl (applyShare dpp) acc).2 =
        allocSum people acc.1 + acc.2 + dpp * (E.length : ℚ)
  | [], acc, _, _ => by simp
  | p :: t, acc, hsub, helig => by
    have hp : p ∈ people := hsub.subset (List.mem_cons_self p t)
    have ht : t.Sublist people := List.sublist_of_cons_sublist hsub
    have hNE : ((p :: t).map Person.id).Nodup :=
      (hsub.map Person.id).nodup hN
    rw [List.map_cons, List.nodup_cons] at hNE
    have hpos : 0 < subtotal p - acc.1 p.id := helig p (List.mem_cons_self p t)
    rw [List.foldl_cons]
    have hstep : applyShare dpp acc p =
        (fun k => if k = p.id then
            acc.1 k + min dpp (subtotal p - acc.1 p.id) else acc.1 k,
         acc.2 + (dpp - min dpp (subtotal p - acc.1 p.id))) :=
      applyShare_of_pos dpp hpos
    have huntouched : ∀ q ∈ t, (applyShare dpp acc p).1 q.id = acc.1 q.id := by
      intro q hq
      have hne : q.id ≠ p.id := by
        intro h
        exact hNE.1 (h ▸ List.mem_map_of_mem Person.id hq)
      exact applyShare_untouched dpp acc hne
    have helig' : ∀ q ∈ t, 0 < subtotal q - (applyShare dpp acc p).1 q.id := by
      intro q hq
      rw [huntouched q hq]
      exact helig q (List.mem_cons_of_mem p hq)
    have hrec := foldShare_conserve hN dpp t (applyShare dpp acc p) ht helig'
    rw [hrec, hstep]
    dsimp only
    rw [allocSum_update hN hp acc.1 (min dpp (subtotal p - acc.1 p.id))]
    push_cast [List.length_cons]
    ring

/-- If a round ends with strictly more unused discount than it started
with, some processed participant ended the round saturated (allocation at
or above their subtotal). -/
lemma foldShare_sat {dpp : ℚ} (hdpp : 0 ≤ dpp) :
    ∀ (E : List Person) (acc : (String → ℚ) × ℚ),
      acc.2 < (E.foldl (applyShare dpp) acc).2 →
      ∃ p ∈ E, subtotal p ≤ (E.foldl (applyShare dpp) acc).1 p.id
  | [], acc, h => absurd h (lt_irrefl _)
  | p :: t, acc, h => by
    rw [List.foldl_cons] at h ⊢
    by_cases hpos : 0 < subtotal p - acc.1 p.id
    · by_cases hmin : dpp ≤ subtotal p - acc.1 p.id
      · -- full share taken: unused unchanged by this step
        have hsnd : (applyShare dpp acc p).2 = acc.2 := by
          rw [applyShare_of_pos dpp hpos]
          dsimp only
          rw [min_eq_left hmin]
          ring
        obtain ⟨q, hq, hqs⟩ := foldShare_sat hdpp t (applyShare dpp acc p)
          (by rw [hsnd]; exact h)
        exact ⟨q, List.mem_cons_of_mem p hq, hqs⟩
      · -- capacity exhausted: `p` is saturated from this step on
        push_neg at hmin
        have hfst : (applyShare dpp acc p).1 p.id = subtotal p := by
          rw [applyShare_of_pos dpp hpos]
          dsimp only
          rw [if_pos rfl, min_eq_right hmin.le]
          ring
        refine ⟨p, List.mem_cons_self p t, ?_⟩
        calc subtotal p = (applyShare dpp acc p).1 p.id := hfst.symm
          _ ≤ _ := foldShare_fst_mono hdpp t (applyShare dpp acc p) p.id
    · rw [applyShare_of_nonpos dpp hpos] at h ⊢
      obtain ⟨q, hq, hqs⟩ := foldShare_sat hdpp t acc h
      exact ⟨q, List.mem_cons_of_mem p hq, hqs⟩

/-! ### Loop-level lemmas -/

lemma filter_length_lt {l : List Person} {pred : Person → Bool} {p : Person}
    (hp : p ∈ l) (hnp : ¬ pred p) : (l.filter pred).length < l.length := by
  refine Nat.lt_of_le_of_ne (List.length_filter_le pred l) ?_
  intro h
  exact hnp (List.filter_length_eq_length.mp h p hp)

lemma allocLoop_succ_pos {rem : ℚ} {E : List Person} (fuel : Nat)
    (amts : String → ℚ) (h1 : 0 < rem) (h2 : 0 < E.length) :
    allocLoop (fuel + 1) amts rem E =
      allocLoop fuel (allocRound amts rem E).1 (allocRound amts rem E).2
        (E.filter fun person =>
          0 < subtotal person - (allocRound amts rem E).1 person.id) := by
  rw [allocLoop, if_pos ⟨h1, h2⟩]

lemma allocLoop_succ_neg {rem : ℚ} {E : List Person} (fuel : Nat)
    (amts : String → ℚ) (h : ¬ (0 < rem ∧ 0 < E.length)) :
    allocLoop (fuel + 1) amts rem E = amts := by
  rw [allocLoop, if_neg h]

lemma allocLoop_of_nonpos {rem : ℚ} (h : ¬ 0 < rem) :
    ∀ (fuel : Nat) (amts : String → ℚ) (E : List Person),
      allocLoop fuel amts rem E = amts
  | 0, _, _ => rfl
  | fuel + 1, amts, E => allocLoop_succ_neg fuel amts (fun hc => h hc.1)

/-- The loop only ever increases the allocation map, pointwise. -/
lemma allocLoop_mono :
    ∀ (fuel : Nat) (amts : String → ℚ) (rem : ℚ) (E : List Person)
      (k : String), amts k ≤ allocLoop fuel amts rem E k
  | 0, _, _, _, _ => le_refl _
  | fuel + 1, amts, rem, E, k => by
    by_cases hc : 0 < rem ∧ 0 < E.length
    · rw [allocLoop_succ_pos fuel amts hc.1 hc.2]
      have hdpp : 0 ≤ rem / (E.length : ℚ) :=
        div_nonneg hc.1.le (Nat.cast_nonneg _)
      exact (foldShare_fst_mono hdpp E (amts, 0) k).trans
        (allocLoop_mono fuel _ _ _ k)
    · rw [allocLoop_succ_neg fuel amts hc]

/-- The loop invariant of `calculateDiscountedAmounts`, relative to its
participants list and the original total discount: the eligible set is a
sublist of `people`, eligible participants have positive remaining
subtotal, allocations never exceed subtotals, allocated-plus-remaining is
conserved at `td`, the remaining discount is non-negative, and every
participant is eligible or fully saturated. -/
def LoopInv (people : List Person) (td : ℚ) (amts : String → ℚ) (rem : ℚ)
    (elig : List Person) : Prop :=
  elig.Sublist people ∧
  (∀ p ∈ elig, 0 < subtotal p - amts p.id) ∧
  (∀ p ∈ people, amts p.id ≤ subtotal p) ∧
  allocSum people amts + rem = td ∧
  0 ≤ rem ∧
  (∀ p ∈ people, p ∈ elig ∨ amts p.id = subtotal p)

lemma loopInv_step {people : List Person} {td : ℚ}
    (hN : (people.map Person.id).Nodup) {amts : String → ℚ} {rem : ℚ}
    {elig : List Person} (inv : LoopInv people td amts rem elig)
    (h1 : 0 < rem) (h2 : 0 < elig.length) :
    LoopInv people td (allocRound amts rem elig).1 (allocRound amts rem elig).2
      (elig.filter fun person =>
        0 < subtotal person - (allocRound amts rem elig).1 person.id) := by
  obtain ⟨hsub, helig, hcap, hcon, hrem, hdrop⟩ := inv
  have hlen : ((elig.length : ℚ)) ≠ 0 := by
    exact_mod_cast Nat.pos_iff_ne_zero.mp h2
  have hdpp : 0 ≤ rem / (elig.length : ℚ) :=
    div_nonneg h1.le (Nat.cast_nonneg _)
  have heligzero : ∀ q ∈ elig, 0 < subtotal q - (amts, (0 : ℚ)).1 q.id := helig
  have huntouchedOut : ∀ p ∈ people, p ∉ elig →
      (allocRound amts rem elig).1 p.id = amts p.id := by
    intro p hp hpe
    apply foldShare_untouched
    intro hmem
    obtain ⟨q, hq, hqid⟩ := List.mem_map.mp hmem
    exact hpe ((id_inj hN (hsub.subset hq) hp hqid) ▸ hq)
  refine ⟨(List.filter_sublist elig).trans hsub, ?_, ?_, ?_, ?_, ?_⟩
  · intro p hp
    have := List.mem_filter.mp hp
    exact_mod_cast of_decide_eq_true this.2
  · exact foldShare_cap hN _ elig (amts, 0) hsub hcap
  · have := foldShare_conserve hN (rem / (elig.length : ℚ)) elig (amts, 0)
      hsub heligzero
    rw [allocRound]
    rw [this]
    dsimp only
    rw [div_mul_cancel₀ rem hlen] at *
    linarith [hcon]
  · exact foldShare_snd_mono _ elig (amts, 0)
  · intro p hp
    by_cases hpe : p ∈ elig
    · by_cases hpf : (0 : ℚ) < subtotal p - (allocRound amts rem elig).1 p.id
      · left
        exact List.mem_filter.mpr ⟨hpe, decide_eq_true hpf⟩
      · right
        have hle : subtotal p ≤ (allocRound amts rem elig).1 p.id := by
          push_neg at hpf
          linarith
        exact le_antisymm (foldShare_cap hN _ elig (amts, 0) hsub hcap p hp) hle
    · right
      rw [huntouchedOut p hp hpe]
      rcases hdrop p hp with h | h
      · exact absurd h hpe
      · exact h

/-- Any number of further rounds keeps every allocation below the
subtotal and the allocated total below the original discount. -/
lemma allocLoop_cap_sum {people : List Person} {td : ℚ}
    (hN : (people.map Person.id).Nodup) :
    ∀ (fuel : Nat) (amts : String → ℚ) (rem : ℚ) (elig : List Person),
      LoopInv people td amts rem elig →
      (∀ p ∈ people, allocLoop fuel amts rem elig p.id ≤ subtotal p) ∧
        allocSum people (allocLoop fuel amts rem elig) ≤ td
  | 0, amts, rem, _, inv => by
    obtain ⟨_, _, hcap, hcon, hrem, _⟩ := inv
    exact ⟨hcap, by rw [allocLoop]; linarith⟩
  | fuel + 1, amts, rem, elig, inv => by
    by_cases hc : 0 < rem ∧ 0 < elig.length
    · rw [allocLoop_succ_pos fuel amts hc.1 hc.2]
      exact allocLoop_cap_sum hN fuel _ _ _ (loopInv_step hN inv hc.1 hc.2)
    · rw [allocLoop_succ_neg fuel amts hc]
      obtain ⟨_, _, hcap, hcon, hrem, _⟩ := inv
      exact ⟨hcap, by linarith⟩

/-- With enough fuel (or an already-exhausted discount), the loop
distributes exactly `min td (totalSub people)`. -/
lemma allocLoop_sum {people : List Person} {td : ℚ}
    (hN : (people.map Person.id).Nodup) :
    ∀ (fuel : Nat) (amts : String → ℚ) (rem : ℚ) (elig : List Person),
      LoopInv people td amts rem elig →
      (elig.length < fuel ∨ rem = 0) →
      allocSum people (allocLoop fuel amts rem elig) = min td (totalSub people)
  | 0, amts, rem, elig, inv, hfuel => by
    obtain ⟨_, _, hcap, hcon, hrem, _⟩ := inv
    have hrem0 : rem = 0 := by
      rcases hfuel with h | h
      · exact absurd h (Nat.not_lt_zero _)
      · exact h
    rw [allocLoop]
    have htd : td ≤ totalSub people := by
      have := allocSum_le_totalSub hcap
      linarith
    rw [min_eq_left htd]
    linarith
  | fuel + 1, amts, rem, elig, inv, hfuel => by
    by_cases hc : 0 < rem ∧ 0 < elig.length
    · rw [allocLoop_succ_pos fuel amts hc.1 hc.2]
      have inv' := loopInv_step hN inv hc.1 hc.2
      have hdpp : 0 ≤ rem / (elig.length : ℚ) :=
        div_nonneg hc.1.le (Nat.cast_nonneg _)
      by_cases hr2 : 0 < (allocRound amts rem elig).2
      · -- some participant got saturated this round: the eligible set shrinks
        obtain ⟨p, hp, hps⟩ := foldShare_sat hdpp elig (amts, 0) hr2
        have hps' : subtotal p ≤ (allocRound amts rem elig).1 p.id := hps
        have hlt : (elig.filter fun person => decide
            (0 < subtotal person - (allocRound amts rem elig).1
              person.id)).length < elig.length := by
          refine filter_length_lt hp ?_
          simp only [decide_eq_true_eq, not_lt]
          linarith
        have hfuel' : (elig.filter fun person => decide
            (0 < subtotal person - (allocRound amts rem elig).1
              person.id)).length < fuel := by
          rcases hfuel with h | h
          · omega
          · exact absurd h (ne_of_gt hc.1)
        exact allocLoop_sum hN fuel _ _ _ inv' (Or.inl hfuel')
      · -- no unused discount: the remaining discount is exactly zero
        have hr2' : (allocRound amts rem elig).2 = 0 := by
          have hge : (0 : ℚ) ≤ (allocRound amts rem elig).2 :=
            foldShare_snd_mono (rem / (elig.length : ℚ)) elig (amts, 0)
          push_neg at hr2
          linarith
        exact allocLoop_sum hN fuel _ _ _ inv' (Or.inr hr2')
    · rw [allocLoop_succ_neg fuel amts hc]
      obtain ⟨_, _, hcap, hcon, hrem, hdrop⟩ := inv
      rcases not_and_or.mp hc with h | h
      · -- remaining discount exhausted: everything allocated, td ≤ totalSub
        have hrem0 : rem = 0 := le_antisymm (not_lt.mp h) hrem
        have htd : td ≤ totalSub people := by
          have := allocSum_le_totalSub hcap
          linarith
        rw [min_eq_left htd]
        linarith
      · -- eligible set empty: every participant saturated, totalSub ≤ td
        have helig : elig = [] := by
          rcases List.eq_nil_or_concat elig with h' | ⟨l, a, rfl⟩
          · exact h'
          · exact absurd (by simp) h
        subst helig
        have hall : ∀ p ∈ people, amts p.id = subtotal p := by
          intro p hp
          rcases hdrop p hp with h' | h'
          · exact absurd h' (List.not_mem_nil p)
          · exact h'
        have hsum := allocSum_eq_totalSub hall
        have htd : totalSub people ≤ td := by linarith
        rw [min_eq_right htd]
        linarith

/-- Fuel-stability: once the fuel exceeds the eligible-set size, adding
more fuel never changes the loop's result (each executed round either
zeroes the remaining discount or strictly shrinks the eligible set). -/
lemma allocLoop_stable :
    ∀ (f₁ f₂ : Nat) (amts : String → ℚ) (rem : ℚ) (elig : List Person),
      elig.length < f₁ → elig.length < f₂ →
      allocLoop f₁ amts rem elig = allocLoop f₂ amts rem elig
  | 0, _, _, _, _, h1, _ => absurd h1 (Nat.not_lt_zero _)
  | _ + 1, 0, _, _, _, _, h2 => absurd h2 (Nat.not_lt_zero _)
  | s + 1, t + 1, amts, rem, elig, h1, h2 => by
    by_cases hc : 0 < rem ∧ 0 < elig.length
    · rw [allocLoop_succ_pos s amts hc.1 hc.2,
        allocLoop_succ_pos t amts hc.1 hc.2]
      have hdpp : 0 ≤ rem / (elig.length : ℚ) :=
        div_nonneg hc.1.le (Nat.cast_nonneg _)
      by_cases hr2 : 0 < (allocRound amts rem elig).2
      · obtain ⟨p, hp, hps⟩ := foldShare_sat hdpp elig (amts, 0) hr2
        have hps' : subtotal p ≤ (allocRound amts rem elig).1 p.id := hps
        have hlt : (elig.filter fun person => decide
            (0 < subtotal person - (allocRound amts rem elig).1
              person.id)).length < elig.length := by
          refine filter_length_lt hp ?_
          simp only [decide_eq_true_eq, not_lt]
          linarith
        exact allocLoop_stable s t _ _ _ (by omega) (by omega)
      · rw [allocLoop_of_nonpos hr2, allocLoop_of_nonpos hr2]
    · rw [allocLoop_succ_neg s amts hc, allocLoop_succ_neg t amts hc]

/-- The invariant holds on entry to the loop. -/
lemma loopInv_init (people : List Person) (td : ℚ)
    (hsub : ∀ p ∈ people, 0 ≤ subtotal p) (htd : 0 ≤ td) :
    LoopInv people td (fun _ => 0) td
      (people.filter fun person => 0 < subtotal person) := by
  refine ⟨List.filter_sublist people, ?_, ?_, ?_, htd, ?_⟩
  · intro p hp
    have := of_decide_eq_true (List.mem_filter.mp hp).2
    simpa using this
  · intro p hp
    simpa using hsub p hp
  · simp
  · intro p hp
    by_cases h : 0 < subtotal p
    · exact Or.inl (List.mem_filter.mpr ⟨hp, decide_eq_true h⟩)
    · exact Or.inr (le_antisymm (hsub p hp) (not_lt.mp h))

lemma items_nonneg_subtotal {people : List Person}
    (hitems : ∀ p ∈ people, ∀ it ∈ p.items, 0 ≤ it.quantity ∧ 0 ≤ it.price) :
    ∀ p ∈ people, 0 ≤ subtotal p :=
  fun p hp => subtotal_nonneg p (hitems p hp)

/-- Every allocation the loop produces is non-negative. -/
lemma calculateDiscountedAmounts_nonneg (people : List Person)
    (totalDiscount minimumSpend : ℚ) (k : String) :
    0 ≤ calculateDiscountedAmounts people totalDiscount minimumSpend k :=
  allocLoop_mono _ (fun _ => 0) totalDiscount _ k

/-! ### Claim theorems -/

/-- C1: for non-negative item quantities and prices, non-negative
`totalDiscount`, and participants with distinct identifiers (ids are
unique tokens in the data model), the allocation returned by
`calculateDiscountedAmounts` sums to at most `totalDiscount` across
participants, and no participant's allocated discount exceeds their own
subtotal. -/
theorem claim_C1_alloc_bounds (people : List Person)
    (totalDiscount minimumSpend : ℚ)
    (hids : (people.map Person.id).Nodup)
    (hitems : ∀ p ∈ people, ∀ it ∈ p.items, 0 ≤ it.quantity ∧ 0 ≤ it.price)
    (htd : 0 ≤ totalDiscount) :
    allocSum people
        (calculateDiscountedAmounts people totalDiscount minimumSpend) ≤
      totalDiscount ∧
    ∀ p ∈ people,
      calculateDiscountedAmounts people totalDiscount minimumSpend p.id ≤
        subtotal p := by
  have hinit := loopInv_init people totalDiscount
    (items_nonneg_subtotal hitems) htd
  have := allocLoop_cap_sum hids
    ((people.filter fun person => 0 < subtotal person).length + 1)
    (fun _ => 0) totalDiscount
    (people.filter fun person => 0 < subtotal person) hinit
  exact ⟨this.2, this.1⟩

/-- C1 witness at a concrete two-participant input. -/
def personA : Person :=
  { id := "A", name := "Ann",
    items := [{ id := "ia", name := "soup", quantity := 1, price := 10000 }] }

/-- C1 witness input, second participant. -/
def personB : Person :=
  { id := "B", name := "Ben",
    items := [{ id := "ib", name := "steak", quantity := 1, price := 100000 }] }

theorem claim_C1_alloc_bounds_witness :
    allocSum [personA, personB]
        (calculateDiscountedAmounts [personA, personB] 60000 0) ≤ 60000 ∧
    ∀ p ∈ [personA, personB],
      calculateDiscountedAmounts [personA, personB] 60000 0 p.id ≤
        subtotal p :=
  claim_C1_alloc_bounds [personA, personB] 60000 0 (by decide)
    (by norm_num [personA, personB]) (by norm_num)

/-- C2: with the same well-formedness assumptions, the total discount
actually applied equals `min totalDiscount (Σ subtotals)`: nothing is left
unused while capacity remains, and an excess discount is silently dropped
with exactly the sum of all subtotals applied. -/
theorem claim_C2_total_applied (people : List Person)
    (totalDiscount minimumSpend : ℚ)
    (hids : (people.map Person.id).Nodup)
    (hitems : ∀ p ∈ people, ∀ it ∈ p.items, 0 ≤ it.quantity ∧ 0 ≤ it.price)
    (htd : 0 ≤ totalDiscount) :
    allocSum people
        (calculateDiscountedAmounts people totalDiscount minimumSpend) =
      min totalDiscount (totalSub people) := by
  have hinit := loopInv_init people totalDiscount
    (items_nonneg_subtotal hitems) htd
  exact allocLoop_sum hids
    ((people.filter fun person => 0 < subtotal person).length + 1)
    (fun _ => 0) totalDiscount
    (people.filter fun person => 0 < subtotal person) hinit
    (Or.inl (Nat.lt_succ_self _))

theorem claim_C2_total_applied_witness :
    allocSum [personA, personB]
        (calculateDiscountedAmounts [personA, personB] 200000 0) =
      min 200000 (totalSub [personA, personB]) :=
  claim_C2_total_applied [personA, personB] 200000 0 (by decide)
    (by norm_num [personA, personB]) (by norm_num)

/-- C4: termination within `O(n)` rounds — running the while loop with
any fuel of at least `|eligible| + 1` rounds produces the same final
allocation map, because each executed round either zeroes the remaining
discount or strictly shrinks the eligible set. -/
theorem claim_C4_terminates (people : List Person)
    (totalDiscount minimumSpend : ℚ) (fuel : Nat)
    (hfuel : (people.filter fun person => 0 < subtotal person).length + 1 ≤
      fuel) :
    allocLoop fuel (fun _ => 0) totalDiscount
        (people.filter fun person => 0 < subtotal person) =
      calculateDiscountedAmounts people totalDiscount minimumSpend :=
  allocLoop_stable fuel
    ((people.filter fun person => 0 < subtotal person).length + 1)
    (fun _ => 0) totalDiscount _ (by omega) (Nat.lt_succ_self _)

theorem claim_C4_terminates_witness :
    allocLoop 7 (fun _ => 0) 60000
        ([personA, personB].filter fun person => 0 < subtotal person) =
      calculateDiscountedAmounts [personA, personB] 60000 0 :=
  claim_C4_terminates [personA, personB] 60000 0 7
    (by norm_num [personA, personB, subtotal])

/-- C5: the spec's Scenario 2 — participants with subtotals `10000` and
`100000` and a flat uncapped discount of `60000`: the computed total
discount is `60000`, participant A is capped at `10000`, participant B
receives `50000`, and the whole discount is applied. -/
theorem claim_C5_scenario2 :
    billTotalDiscount [personA, personB]
        { type := DiscountType.flat, value := 60000, minimumSpend := 0,
          maxDiscountAmount := none } = 60000 ∧
    calculateDiscountedAmounts [personA, personB] 60000 0 "A" = 10000 ∧
    calculateDiscountedAmounts [personA, personB] 60000 0 "B" = 50000 ∧
    calculateDiscountedAmounts [personA, personB] 60000 0 "A" +
        calculateDiscountedAmounts [personA, personB] 60000 0 "B" = 60000 := by
  norm_num +decide [calculateDiscountedAmounts, allocLoop, allocRound,
    applyShare, subtotal, personA, personB, List.filter, min_def,
    billTotalDiscount, mathMinInf]

/-- C3: the total discount computed inside `calculateBillSummary` agrees
with the spec's `computeTotalDiscount` operation — `min(value% × Σ
subtotals, cap)` for percentage discounts, `min(value, cap)` for flat
discounts, with an uncapped `cap` acting as `+∞` in the `min`. -/
theorem claim_C3_total_discount (people : List Person)
    (config : DiscountSettings) :
    billTotalDiscount people config = computeTotalDiscountSpec people config := by
  rw [billTotalDiscount, computeTotalDiscountSpec]
  cases config.type <;> cases config.maxDiscountAmount <;>
    simp [mathMinInf, peopleFoldl_eq_totalSub, mul_comm]

/-- C6: every `BillSummary` row satisfies the invariants: shared fees are
the fee total divided by `max 1 participantCount`, `total` is
`discountedSubtotal + sharedFees`, and `0 ≤ discountedSubtotal ≤
subtotal` (given non-negative item quantities and prices). -/
theorem claim_C6_summary_invariants (people : List Person)
    (discountSettings : DiscountSettings) (additionalFees : List AdditionalFee)
    (hitems : ∀ p ∈ people, ∀ it ∈ p.items, 0 ≤ it.quantity ∧ 0 ≤ it.price) :
    ∀ s ∈ calculateBillSummary people discountSettings additionalFees,
      s.sharedFees =
        (additionalFees.map AdditionalFee.amount).sum /
          ((max 1 people.length : Nat) : ℚ) ∧
      s.total = s.discountedSubtotal + s.sharedFees ∧
      0 ≤ s.discountedSubtotal ∧
      s.discountedSubtotal ≤ s.subtotal := by
  intro s hs
  rw [calculateBillSummary] at hs
  obtain ⟨person, hperson, rfl⟩ := List.mem_map.mp hs
  refine ⟨?_, rfl, le_max_left _ _, ?_⟩
  · dsimp only
    rw [foldl_add_eq, zero_add]
    congr 2
    have : (if people.length = 0 then 1 else people.length) =
        max 1 people.length := by
      split <;> omega
    exact_mod_cast this
  · dsimp only
    have hamt := calculateDiscountedAmounts_nonneg people
      (billTotalDiscount people discountSettings)
      discountSettings.minimumSpend person.id
    have hsub := subtotal_nonneg person (hitems person hperson)
    apply max_le hsub
    linarith

theorem claim_C6_summary_invariants_witness :
    ({ personId := "A", subtotal := 10000, discountedSubtotal := 7500,
       sharedFees := 1000, total := 8500 } : BillSummary).sharedFees =
      (([{ id := "f1", name := "service", amount := 2000 }] :
          List AdditionalFee).map AdditionalFee.amount).sum /
        ((max 1 ([personA, personB] : List Person).length : Nat) : ℚ) ∧
    ({ personId := "A", subtotal := 10000, discountedSubtotal := 7500,
       sharedFees := 1000, total := 8500 } : BillSummary).total =
      ({ personId := "A", subtotal := 10000, discountedSubtotal := 7500,
         sharedFees := 1000, total := 8500 } : BillSummary).discountedSubtotal +
        ({ personId := "A", subtotal := 10000, discountedSubtotal := 7500,
           sharedFees := 1000, total := 8500 } : BillSummary).sharedFees ∧
    0 ≤ ({ personId := "A", subtotal := 10000, discountedSubtotal := 7500,
           sharedFees := 1000,
           total := 8500 } : BillSummary).discountedSubtotal ∧
    ({ personId := "A", subtotal := 10000, discountedSubtotal := 7500,
       sharedFees := 1000, total := 8500 } : BillSummary).discountedSubtotal ≤
      ({ personId := "A", subtotal := 10000, discountedSubtotal := 7500,
         sharedFees := 1000, total := 8500 } : BillSummary).subtotal :=
  claim_C6_summary_invariants [personA, personB]
    { type := DiscountType.percentage, value := 10, minimumSpend := 0,
      maxDiscountAmount := some 5000 }
    [{ id := "f1", name := "service", amount := 2000 }]
    (by norm_num [personA, personB])
    { personId := "A", subtotal := 10000, discountedSubtotal := 7500,
      sharedFees := 1000, total := 8500 }
    (by norm_num +decide [calculateBillSummary, calculateDiscountedAmounts,
      allocLoop, allocRound, applyShare, subtotal, personA, personB,
      List.filter, min_def, max_def, billTotalDiscount, mathMinInf])

/-- C9: `minimumSpend` has no influence on either the allocation or the
bill summaries — it is read from the configuration and passed along but
never used. -/
theorem claim_C9_minimumSpend_unused :
    (∀ (people : List Person) (totalDiscount m₁ m₂ : ℚ),
      calculateDiscountedAmounts people totalDiscount m₁ =
        calculateDiscountedAmounts people totalDiscount m₂) ∧
    (∀ (people : List Person) (d : DiscountSettings)
      (additionalFees : List AdditionalFee) (m₁ m₂ : ℚ),
      calculateBillSummary people { d with minimumSpend := m₁ }
          additionalFees =
        calculateBillSummary people { d with minimumSpend := m₂ }
          additionalFees) :=
  ⟨fun _ _ _ _ => rfl, fun _ _ _ _ _ => rfl⟩

/-- C10: whenever the total discount is positive, every participant with
a positive subtotal receives a strictly positive allocation, at least
`min(first-round equal share, their subtotal)` (participants have
distinct identifiers per the data model). -/
theorem claim_C10_everyone_positive (people : List Person)
    (totalDiscount minimumSpend : ℚ) (p : Person)
    (hids : (people.map Person.id).Nodup) (hp : p ∈ people)
    (hpos : 0 < subtotal p) (htd : 0 < totalDiscount) :
    0 < calculateDiscountedAmounts people totalDiscount minimumSpend p.id ∧
    min (totalDiscount /
        (((people.filter fun q => 0 < subtotal q).length : ℚ)))
      (subtotal p) ≤
      calculateDiscountedAmounts people totalDiscount minimumSpend p.id := by
  have hpE : p ∈ (people.filter fun q => 0 < subtotal q) :=
    List.mem_filter.mpr ⟨hp, decide_eq_true hpos⟩
  have hlen : 0 < (people.filter fun q => 0 < subtotal q).length :=
    List.length_pos_of_mem hpE
  have hNE : (((people.filter fun q => 0 < subtotal q)).map Person.id).Nodup :=
    hids.sublist ((List.filter_sublist people).map Person.id)
  have hdpp : 0 < totalDiscount /
      (((people.filter fun q => 0 < subtotal q).length : ℚ)) :=
    div_pos htd (by exact_mod_cast hlen)
  have hunfold : calculateDiscountedAmounts people totalDiscount minimumSpend =
      allocLoop ((people.filter fun q => 0 < subtotal q).length + 1)
        (fun _ => 0) totalDiscount (people.filter fun q => 0 < subtotal q) :=
    rfl
  have hlow := foldShare_lower hdpp.le
    (people.filter fun q => 0 < subtotal q) ((fun _ => 0), 0) p hNE hpE
    (by simpa using hpos)
  have hmono := allocLoop_mono
    ((people.filter fun q => 0 < subtotal q).length)
    (allocRound (fun _ => 0) totalDiscount
      (people.filter fun q => 0 < subtotal q)).1
    (allocRound (fun _ => 0) totalDiscount
      (people.filter fun q => 0 < subtotal q)).2
    ((people.filter fun q => 0 < subtotal q).filter fun person =>
      0 < subtotal person - (allocRound (fun _ => 0) totalDiscount
        (people.filter fun q => 0 < subtotal q)).1 person.id)
    p.id
  have hround : min (totalDiscount /
        (((people.filter fun q => 0 < subtotal q).length : ℚ)))
      (subtotal p) ≤
      (allocRound (fun _ => 0) totalDiscount
        (people.filter fun q => 0 < subtotal q)).1 p.id := by
    simpa using hlow
  have hfinal : min (totalDiscount /
        (((people.filter fun q => 0 < subtotal q).length : ℚ)))
      (subtotal p) ≤
      calculateDiscountedAmounts people totalDiscount minimumSpend p.id := by
    rw [hunfold, allocLoop_succ_pos _ _ htd hlen]
    exact hround.trans hmono
  exact ⟨lt_of_lt_of_le (lt_min hdpp hpos) hfinal, hfinal⟩

theorem claim_C10_everyone_positive_witness :
    0 < calculateDiscountedAmounts [personA, personB] 60000 0 personA.id ∧
    min (60000 /
        ((([personA, personB].filter fun q =>
          0 < subtotal q) : List Person).length : ℚ))
      (subtotal personA) ≤
      calculateDiscountedAmounts [personA, personB] 60000 0 personA.id :=
  claim_C10_everyone_positive [personA, personB] 60000 0 personA (by decide)
    (by norm_num) (by norm_num [personA, subtotal]) (by norm_num)

/-! ### State encoding/decoding (`compressState` / `expandState`) -/

/-- Wire form of an item: `{ n, q, p }`. -/
structure CompactItem where
  n : String
  q : ℚ
  p : ℚ
deriving DecidableEq

/-- Wire form of a person: `{ n, i }`. -/
structure CompactPerson where
  n : String
  i : List CompactItem
deriving DecidableEq

/-- Wire form of the discount settings: `{ t, v, m, x }`, where `x = -1`
is the reserved sentinel for an uncapped discount. -/
structure CompactDiscount where
  t : DiscountType
  v : ℚ
  m : ℚ
  x : ℚ
deriving DecidableEq

/-- Wire form of a fee: `{ n, a }`. -/
structure CompactFee where
  n : String
  a : ℚ
deriving DecidableEq

/-- Wire form of the whole state: `{ p, d, f }`. -/
structure CompactState where
  p : List CompactPerson
  d : CompactDiscount
  f : List CompactFee
deriving DecidableEq

/-- The record returned by `expandState`. -/
structure ExpandedState where
  people : List Person
  discountSettings : DiscountSettings
  additionalFees : List AdditionalFee
deriving DecidableEq

/-- `compressState`: project names/quantities/prices/discount/fee values
into the compact wire structure, mapping an uncapped `maxDiscountAmount`
(`Infinity`) to the sentinel `-1`.  The `btoa(JSON.stringify(...))` layer
(platform functions) is modelled as the identity on this structure. -/
def compressState (people : List Person) (discountSettings : DiscountSettings)
    (additionalFees : List AdditionalFee) : CompactState :=
  { p := people.map fun person =>
      { n := person.name
        i := person.items.map fun item =>
          { n := item.name, q := item.quantity, p := item.price } }
    d := { t := discountSettings.type
           v := discountSettings.value
           m := discountSettings.minimumSpend
           x := match discountSettings.maxDiscountAmount with
                | none => -1
                | some c => c }
    f := additionalFees.map fun fee => { n := fee.name, a := fee.amount } }

/-- Rebuild the items of one person, drawing one fresh identifier
(`crypto.randomUUID()`, modelled by the supply `gen` at the running
counter) per item; returns the items and the advanced counter. -/
def expandItems (gen : Nat → String) :
    Nat → List CompactItem → List Item × Nat
  | c, [] => ([], c)
  | c, item :: rest =>
    let rest' := expandItems gen (c + 1) rest
    ({ id := gen c, name := item.n, quantity := item.q, price := item.p } ::
      rest'.1, rest'.2)

/-- Rebuild the people list, drawing one fresh identifier per person and
one per item, in source evaluation order (person id first, then its
items). -/
def expandPeople (gen : Nat → String) :
    Nat → List CompactPerson → List Person × Nat
  | c, [] => ([], c)
  | c, cp :: rest =>
    let items := expandItems gen (c + 1) cp.i
    let rest' := expandPeople gen items.2 rest
    ({ id := gen c, name := cp.n, items := items.1 } :: rest'.1, rest'.2)

/-- Rebuild the fee list, drawing one fresh identifier per fee. -/
def expandFees (gen : Nat → String) :
    Nat → List CompactFee → List AdditionalFee × Nat
  | c, [] => ([], c)
  | c, cf :: rest =>
    let rest' := expandFees gen (c + 1) rest
    ({ id := gen c, name := cf.n, amount := cf.a } :: rest'.1, rest'.2)

/-- The successful branch of `expandState`: rebuild people, discount
settings (decoding the `-1` sentinel back to uncapped) and fees. -/
def expandStateOk (gen : Nat → String) (compactState : CompactState) :
    ExpandedState :=
  let ppl := expandPeople gen 0 compactState.p
  let fees := expandFees gen ppl.2 compactState.f
  { people := ppl.1
    discountSettings :=
      { type := compactState.d.t
        value := compactState.d.v
        minimumSpend := compactState.d.m
        maxDiscountAmount :=
          if compactState.d.x = -1 then none else some compactState.d.x }
    additionalFees := fees.1 }

/-- `expandState`: the `JSON.parse(atob(...))` decode is modelled by an
`Option CompactState` — `none` for any decode failure (invalid base64,
invalid JSON, or not the expected compact shape), which the source's
`catch` turns into the default empty state. -/
def expandState (gen : Nat → String) (decoded : Option CompactState) :
    ExpandedState :=
  match decoded with
  | some compactState => expandStateOk gen compactState
  | none =>
    { people := []
      discountSettings :=
        { type := DiscountType.percentage, value := 0, minimumSpend := 0,
          maxDiscountAmount := none }
      additionalFees := [] }

/-! ### Identifier-free projections and identifier bookkeeping -/

/-- An item with its identifier erased. -/
structure BareItem where
  name : String
  quantity : ℚ
  price : ℚ
deriving DecidableEq

/-- A person with all identifiers erased. -/
structure BarePerson where
  name : String
  items : List BareItem
deriving DecidableEq

/-- A fee with its identifier erased. -/
structure BareFee where
  name : String
  amount : ℚ
deriving DecidableEq

/-- Erase an item's identifier. -/
def Item.strip (item : Item) : BareItem :=
  { name := item.name, quantity := item.quantity, price := item.price }

/-- Erase a person's identifiers. -/
def Person.strip (person : Person) : BarePerson :=
  { name := person.name, items := person.items.map Item.strip }

/-- Erase a fee's identifier. -/
def AdditionalFee.strip (fee : AdditionalFee) : BareFee :=
  { name := fee.name, amount := fee.amount }

/-- All identifiers of a people list, in document order (person id, then
its item ids). -/
def peopleIds : List Person → List String
  | [] => []
  | person :: rest =>
    (person.id :: person.items.map Item.id) ++ peopleIds rest

/-- All identifiers of an expanded state, in generation order. -/
def stateIds (s : ExpandedState) : List String :=
  peopleIds s.people ++ s.additionalFees.map AdditionalFee.id

/-- Number of identifiers needed by a compact people list. -/
def peopleSize : List CompactPerson → Nat
  | [] => 0
  | cp :: rest => 1 + cp.i.length + peopleSize rest

/-- Total number of items across a people list. -/
def totalItems (people : List Person) : Nat :=
  (people.map fun person => person.items.length).sum

lemma expandItems_snd (gen : Nat → String) :
    ∀ (c : Nat) (l : List CompactItem), (expandItems gen c l).2 = c + l.length
  | _, [] => by simp [expandItems]
  | c, item :: rest => by
    simp [expandItems, expandItems_snd gen (c + 1) rest]
    omega

lemma expandItems_strip (gen : Nat → String) :
    ∀ (c : Nat) (l : List CompactItem),
      (expandItems gen c l).1.map Item.strip =
        l.map fun item => ⟨item.n, item.q, item.p⟩
  | _, [] => rfl
  | c, item :: rest => by
    simp [expandItems, Item.strip, expandItems_strip gen (c + 1) rest]

lemma expandItems_ids (gen : Nat → String) :
    ∀ (c : Nat) (l : List CompactItem),
      (expandItems gen c l).1.map Item.id =
        (List.range' c l.length).map gen
  | _, [] => rfl
  | c, item :: rest => by
    simp [expandItems, List.range'_succ, expandItems_ids gen (c + 1) rest]

lemma expandPeople_snd (gen : Nat → String) :
    ∀ (c : Nat) (l : List CompactPerson),
      (expandPeople gen c l).2 = c + peopleSize l
  | _, [] => by simp [expandPeople, peopleSize]
  | c, cp :: rest => by
    simp [expandPeople, peopleSize, expandItems_snd,
      expandPeople_snd gen (c + 1 + cp.i.length) rest]
    omega

lemma expandPeople_strip (gen : Nat → String) :
    ∀ (c : Nat) (l : List CompactPerson),
      (expandPeople gen c l).1.map Person.strip =
        l.map fun cp => ⟨cp.n, cp.i.map fun item => ⟨item.n, item.q, item.p⟩⟩
  | _, [] => rfl
  | c, cp :: rest => by
    simp [expandPeople, Person.strip, expandItems_strip, expandItems_snd,
      expandPeople_strip gen (c + 1 + cp.i.length) rest]

lemma expandPeople_ids (gen : Nat → String) :
    ∀ (c : Nat) (l : List CompactPerson),
      peopleIds (expandPeople gen c l).1 =
        (List.range' c (peopleSize l)).map gen
  | _, [] => rfl
  | c, cp :: rest => by
    have hrest := expandPeople_ids gen (c + 1 + cp.i.length) rest
    have hitems := expandItems_ids gen (c + 1) cp.i
    have hsnd := expandItems_snd gen (c + 1) cp.i
    simp only [expandPeople, peopleIds, hsnd, hrest, hitems]
    rw [List.cons_append, ← List.map_append, List.range'_append_1,
      ← List.map_cons, ← List.range'_succ]
    congr 2
    simp only [peopleSize]
    omega

lemma expandFees_strip (gen : Nat → String) :
    ∀ (c : Nat) (l : List CompactFee),
      (expandFees gen c l).1.map AdditionalFee.strip =
        l.map fun cf => ⟨cf.n, cf.a⟩
  | _, [] => rfl
  | c, cf :: rest => by
    simp [expandFees, AdditionalFee.strip, expandFees_strip gen (c + 1) rest]

lemma expandFees_ids (gen : Nat → String) :
    ∀ (c : Nat) (l : List CompactFee),
      (expandFees gen c l).1.map AdditionalFee.id =
        (List.range' c l.length).map gen
  | _, [] => rfl
  | c, cf :: rest => by
    simp [expandFees, List.range'_succ, expandFees_ids gen (c + 1) rest]

lemma peopleSize_compress (people : List Person) (d : DiscountSettings)
    (fees : List AdditionalFee) :
    peopleSize (compressState people d fees).p =
      people.length + totalItems people := by
  rw [compressState]
  dsimp only
  induction people with
  | nil => rfl
  | cons p rest ih =>
    simp only [List.map_cons, peopleSize, List.length_map, totalItems,
      List.map_cons, List.sum_cons, List.length_cons] at *
    omega

/-- C7 (amended): expanding a compressed state reproduces the
participant names, item names, quantities and prices in order, the
discount type, value, minimumSpend, and — provided the cap is not the
reserved wire sentinel `-1` — the cap itself (uncapped round-trips via
the sentinel), and the fee names and amounts; all identifiers are freshly
drawn from the identifier supply (`gen 0, gen 1, …` in document order),
not preserved from the input. -/
theorem claim_C7_roundtrip (gen : Nat → String) (people : List Person)
    (d : DiscountSettings) (fees : List AdditionalFee)
    (hcap : d.maxDiscountAmount ≠ some (-1)) :
    (expandState gen (some (compressState people d fees))).people.map
        Person.strip = people.map Person.strip ∧
    (expandState gen (some (compressState people d fees))).discountSettings =
      d ∧
    (expandState gen (some (compressState people d fees))).additionalFees.map
        AdditionalFee.strip = fees.map AdditionalFee.strip ∧
    stateIds (expandState gen (some (compressState people d fees))) =
      (List.range (people.length + totalItems people + fees.length)).map
        gen := by
  refine ⟨?_, ?_, ?_, ?_⟩
  · rw [expandState, expandStateOk]
    dsimp only
    rw [expandPeople_strip, compressState]
    dsimp only
    rw [List.map_map]
    apply List.map_congr_left
    intro p _
    simp only [Function.comp_apply, Person.strip, List.map_map]
    congr 1
  · cases d with
    | mk ty v m x =>
      rcases x with _ | c
      · simp [expandState, expandStateOk, compressState]
      · have hc : c ≠ -1 := fun h => hcap (by simp [h])
        simp [expandState, expandStateOk, compressState, hc]
  · rw [expandState, expandStateOk]
    dsimp only
    rw [expandFees_strip]
    rw [compressState]
    dsimp only
    rw [List.map_map]
    apply List.map_congr_left
    intro f _
    simp [AdditionalFee.strip, Function.comp]
  · rw [expandState, stateIds, expandStateOk]
    dsimp only
    rw [expandPeople_ids, expandFees_ids, expandPeople_snd,
      ← List.map_append, List.range'_append_1, List.range_eq_range']
    congr 2
    rw [peopleSize_compress]
    have : (compressState people d fees).f.length = fees.length := by
      simp [compressState]
    rw [this]
    omega

theorem claim_C7_roundtrip_witness :
    (expandState (fun n => toString n)
        (some (compressState [personA, personB]
          { type := DiscountType.flat, value := 60000, minimumSpend := 0,
            maxDiscountAmount := none }
          [{ id := "f1", name := "service", amount := 2000 }]))).people.map
        Person.strip = [personA, personB].map Person.strip ∧
    (expandState (fun n => toString n)
        (some (compressState [personA, personB]
          { type := DiscountType.flat, value := 60000, minimumSpend := 0,
            maxDiscountAmount := none }
          [{ id := "f1", name := "service",
             amount := 2000 }]))).discountSettings =
      { type := DiscountType.flat, value := 60000, minimumSpend := 0,
        maxDiscountAmount := none } ∧
    (expandState (fun n => toString n)
        (some (compressState [personA, personB]
          { type := DiscountType.flat, value := 60000, minimumSpend := 0,
            maxDiscountAmount := none }
          [{ id := "f1", name := "service",
             amount := 2000 }]))).additionalFees.map
        AdditionalFee.strip =
      ([{ id := "f1", name := "service", amount := 2000 }] :
        List AdditionalFee).map AdditionalFee.strip ∧
    stateIds (expandState (fun n => toString n)
        (some (compressState [personA, personB]
          { type := DiscountType.flat, value := 60000, minimumSpend := 0,
            maxDiscountAmount := none }
          [{ id := "f1", name := "service", amount := 2000 }]))) =
      (List.range (([personA, personB] : List Person).length +
        totalItems [personA, personB] + 1)).map (fun n => toString n) :=
  claim_C7_roundtrip (fun n => toString n) [personA, personB]
    { type := DiscountType.flat, value := 60000, minimumSpend := 0,
      maxDiscountAmount := none }
    [{ id := "f1", name := "service", amount := 2000 }] (by decide)

/-- C7 counterexample: a finite cap equal to the reserved sentinel `-1`
does not round-trip — it is decoded as uncapped, so the decoded cap
differs from the original, refuting the claim for arbitrary states. -/
theorem claim_C7_counterexample :
    (expandState (fun _ => "u")
        (some (compressState []
          { type := DiscountType.percentage, value := 0, minimumSpend := 0,
            maxDiscountAmount := some (-1) }
          []))).discountSettings.maxDiscountAmount ≠
      ({ type := DiscountType.percentage, value := 0, minimumSpend := 0,
         maxDiscountAmount := some (-1) } :
        DiscountSettings).maxDiscountAmount := by
  simp [expandState, expandStateOk, compressState]

/-- C8: on any decode failure, `expandState` returns the default empty
state — no participants, a percentage discount of value `0`, minimum
spend `0`, uncapped maximum, and no fees — instead of propagating the
error. -/
theorem claim_C8_decode_failure (gen : Nat → String) :
    (expandState gen none).people = [] ∧
    (expandState gen none).discountSettings.type = DiscountType.percentage ∧
    (expandState gen none).discountSettings.value = 0 ∧
    (expandState gen none).discountSettings.minimumSpend = 0 ∧
    (expandState gen none).discountSettings.maxDiscountAmount = none ∧
    (expandState gen none).additionalFees = [] :=
  ⟨rfl, rfl, rfl, rfl, rfl, rfl⟩
